import Mathlib

/-!
Verification of the core of `justrun` (file `watch.go`): the digest engine,
the user ignorer construction, the watch-set builder `watch`, and the event
dispatch loop `listenForEvents`.

Paths are modelled as lists of characters.  Go standard-library path helpers
(`filepath.Abs`, `filepath.Dir`, `filepath.Base`, `strings.TrimSpace`) are
external collaborators of the repository; they are modelled below for the
Unix separator `/`, without the lexical `Clean` normalisation (the claims
under study do not depend on `..`/`.` collapsing).  The `crypto/sha256`
collaborator is modelled by a concrete SHA-256 over byte lists.
-/

abbrev GoPath := List Char

abbrev GoErr := String

/-- `hasPre p s` holds when the list `p` is an initial segment of `s`
(model of Go `strings.HasPrefix s p`). -/
def hasPre : List Char → List Char → Bool
  | [], _ => true
  | _ :: _, [] => false
  | a :: as, b :: bs => a == b && hasPre as bs

/-- Model of Go `strings.HasSuffix p s`-style check: `s` is a final segment
of `p`. -/
def hasSuf (s p : List Char) : Bool := hasPre s.reverse p.reverse

/-- Model of Go `strings.TrimSpace`. -/
def trimSpace (s : List Char) : List Char :=
  ((s.dropWhile Char.isWhitespace).reverse.dropWhile Char.isWhitespace).reverse

/-- A rooted (absolute) Unix path starts with the separator. -/
def isAbsPath (p : GoPath) : Bool := hasPre ['/'] p

/-- Model of Go `filepath.Abs`.  An absolute argument is returned as is
(Go would additionally `Clean` it; cleaning is not modelled).  A relative
argument is resolved against the working directory; `cwd = none` models a
failing `os.Getwd`, the only error source of `filepath.Abs`. -/
def goAbs (cwd : Option GoPath) (p : GoPath) : Option GoPath :=
  if isAbsPath p then some p else cwd.map (fun d => d ++ '/' :: p)

/-- Model of Go `filepath.Dir` (without `Clean`): everything up to the last
separator, trailing separators stripped; `.` when there is no separator,
`/` when only separators remain. -/
def goDir (p : GoPath) : GoPath :=
  let d := (p.reverse.dropWhile (fun c => c != '/')).reverse
  if d.isEmpty then ['.']
  else
    let d2 := (d.reverse.dropWhile (fun c => c == '/')).reverse
    if d2.isEmpty then ['/'] else d2

/-- Model of Go `filepath.Base`: the element after the last separator,
with trailing separators stripped first. -/
def baseName (p : GoPath) : GoPath :=
  if p.isEmpty then ['.']
  else
    let q := (p.reverse.dropWhile (fun c => c == '/')).reverse
    if q.isEmpty then ['/']
    else (q.reverse.takeWhile (fun c => c != '/')).reverse

/-! ### SHA-256 (model of the `crypto/sha256` collaborator)

Bytes are naturals below 256, words are naturals below `2 ^ 32`. -/

def M32 : Nat := 4294967296

def rotr32 (n x : Nat) : Nat := ((x >>> n) ||| ((x <<< (32 - n)) % M32)) % M32

def sha256H0 : List Nat :=
  [1779033703, 3144134277, 1013904242, 2773480762, 1359893119,
   2600822924, 528734635, 1541459225]

def sha256K : List Nat :=
  [1116352408, 1899447441, 3049323471, 3921009573, 961987163,
   1508970993, 2453635748, 2870763221, 3624381080, 310598401,
   607225278, 1426881987, 1925078388, 2162078206, 2614888103,
   3248222580, 3835390401, 4022224774, 264347078, 604807628,
   770255983, 1249150122, 1555081692, 1996064986, 2554220882,
   2821834349, 2952996808, 3210313671, 3336571891, 3584528711,
   113926993, 338241895, 666307205, 773529912, 1294757372,
   1396182291, 1695183700, 1986661051, 2177026350, 2456956037,
   2730485921, 2820302411, 3259730800, 3345764771, 3516065817,
   3600352804, 4094571909, 275423344, 430227734, 506948616,
   659060556, 883997877, 958139571, 1322822218, 1537002063,
   1747873779, 1955562222, 2024104815, 2227730452, 2361852424,
   2428436474, 2756734187, 3204031479, 3329325298]

/-- Big-endian byte expansion, `k` bytes. -/
def beBytes (k n : Nat) : List Nat :=
  (List.range k).map (fun i => (n >>> (8 * (k - 1 - i))) % 256)

/-- Group a byte list into big-endian 32-bit words. -/
def wordsOf : List Nat → List Nat
  | a :: b :: c :: d :: rest => (a * 16777216 + b * 65536 + c * 256 + d) :: wordsOf rest
  | _ => []

def sig0 (x : Nat) : Nat := (rotr32 7 x) ^^^ (rotr32 18 x) ^^^ (x >>> 3)

def sig1 (x : Nat) : Nat := (rotr32 17 x) ^^^ (rotr32 19 x) ^^^ (x >>> 10)

/-- Extend the 16-word message schedule by `k` further words. -/
def sha256extend : Nat → List Nat → List Nat
  | 0, w => w
  | k + 1, w =>
    let n := w.length
    let nw := (w.getD (n - 16) 0 + sig0 (w.getD (n - 15) 0) +
               w.getD (n - 7) 0 + sig1 (w.getD (n - 2) 0)) % M32
    sha256extend k (w ++ [nw])

/-- One compression round; the state is the word list `[a,b,c,d,e,f,g,h]`. -/
def sha256round (st : List Nat) (kw : Nat × Nat) : List Nat :=
  match st with
  | [a, b, c, d, e, f, g, h] =>
    let S1 := (rotr32 6 e) ^^^ (rotr32 11 e) ^^^ (rotr32 25 e)
    let ch := (e &&& f) ^^^ ((e ^^^ 4294967295) &&& g)
    let t1 := (h + S1 + ch + kw.1 + kw.2) % M32
    let S0 := (rotr32 2 a) ^^^ (rotr32 13 a) ^^^ (rotr32 22 a)
    let mj := (a &&& b) ^^^ (a &&& c) ^^^ (b &&& c)
    let t2 := (S0 + mj) % M32
    [(t1 + t2) % M32, a, b, c, (d + t1) % M32, e, f, g]
  | st => st

/-- Compress one 64-byte chunk into the running hash state. -/
def sha256chunk (H : List Nat) (chunk : List Nat) : List Nat :=
  let w := sha256extend 48 (wordsOf chunk)
  let st := (sha256K.zip w).foldl sha256round H
  (H.zip st).map (fun p => (p.1 + p.2) % M32)

/-- Split a byte list into 64-byte chunks (fuel-driven for kernel
reducibility). -/
def chunksAux : Nat → List Nat → List (List Nat)
  | 0, _ => []
  | _, [] => []
  | n + 1, l => l.take 64 :: chunksAux n (l.drop 64)

def chunks64 (l : List Nat) : List (List Nat) := chunksAux l.length l

/-- SHA-256 of a byte list, as a 32-byte list. -/
def sha256 (msg : List Nat) : List Nat :=
  let padded := msg ++ 0x80 :: List.replicate ((119 - (msg.length % 64)) % 64) 0
    ++ beBytes 8 (8 * msg.length)
  ((chunks64 padded).foldl sha256chunk sha256H0).map (beBytes 4) |>.flatten

/-! ### The digest engine (`digest` in watch.go) -/

def maxHashedFileSize : Nat := 20 * 1024 * 1024

/-- The state the filesystem presents for one path when `digest` opens it:
the open may fail, the stat may fail, the path may be a directory, or it is
a regular file with a byte content whose streamed read may fail. -/
inductive FileModel where
  | openErr (e : GoErr)
  | statErr (e : GoErr)
  | dir
  | file (content : List Nat) (readErr : Option GoErr)
deriving DecidableEq, Repr

abbrev FS := GoPath → FileModel

/-- Model of `digest` (watch.go:20).  `Except.error e` is Go's
`(nil, err)`; `.ok none` is `(nil, nil)`; `.ok (some h)` is `(h, nil)`.
The hash accumulates the first `maxHashedFileSize` bytes; the one-byte
peek succeeding (a byte beyond the cap remains) yields `(nil, nil)`. -/
def digest (fsys : FS) (path : GoPath) : Except GoErr (Option (List Nat)) :=
  match fsys path with
  | .openErr e => .error e
  | .statErr e => .error e
  | .dir => .ok none
  | .file content readErr =>
    match readErr with
    | some e => .error e
    | none =>
      if maxHashedFileSize < content.length then .ok none
      else .ok (some (sha256 (content.take maxHashedFileSize)))

/-! ### The user ignorer (`createUserIgnorer` in watch.go) -/

/-- The two sets built by `createUserIgnorer`: the exact-match set
(`ignored`, a Go `map[string]bool`, modelled as a list queried by
membership) and the directory-prefix list (`ignoredDirs`). -/
structure userIgnorer where
  ignored : List GoPath
  ignoredDirs : List GoPath
deriving DecidableEq, Repr

/-- The directory-prefix form recorded for an ignored path: the path
itself when it already ends in the separator, otherwise the path with a
separator appended (watch.go:183-186). -/
def dirForm (p : GoPath) : GoPath := if hasSuf ['/'] p then p else p ++ ['/']

/-- The loop body of `createUserIgnorer` (watch.go:173), threading the two
accumulating sets. -/
def createUserIgnorerAux (cwd : Option GoPath) :
    List GoPath → List GoPath → List GoPath → Except GoErr userIgnorer
  | [], ign, dirs => .ok ⟨ign, dirs⟩
  | e :: rest, ign, dirs =>
    let t := trimSpace e
    if t.isEmpty then createUserIgnorerAux cwd rest ign dirs
    else
      match goAbs cwd t with
      | none =>
        .error "unable to get current working dir while working with ignored paths"
      | some path =>
        createUserIgnorerAux cwd rest (ign ++ [path]) (dirs ++ [dirForm path])

/-- Model of `createUserIgnorer` (watch.go:170). -/
def createUserIgnorer (cwd : Option GoPath) (ignoredPaths : List GoPath) :
    Except GoErr userIgnorer :=
  createUserIgnorerAux cwd ignoredPaths [] []

/-- Modelled from the spec: the method `userIgnorer.IsIgnored` is part of
this repository but not under src/ (only its constructor
`createUserIgnorer` and its callers are).  Spec: "`IsIgnored(path)`
returns true if the path's resolved absolute form is in the exact-match
set, or starts with any recorded prefix."  A failing resolution (no
working directory) flags nothing. -/
def userIgnorer.IsIgnored (cwd : Option GoPath) (ui : userIgnorer) (path : GoPath) : Bool :=
  match goAbs cwd path with
  | none => false
  | some fp => ui.ignored.contains fp || ui.ignoredDirs.any (fun d => hasPre d fp)

/-! ### The watch-set builder (`watch` in watch.go) -/

/-- The observable state of the fsnotify watcher collaborator: the `Add`
calls made so far, in order, and whether `Close` was called. -/
structure Watcher where
  adds : List GoPath
  closed : Bool
deriving DecidableEq, Repr

/-- The derived ignore state assembled at the end of `watch`
(watch.go:122). -/
structure smartIgnorer where
  includedHiddenFiles : List GoPath
  ui : userIgnorer
  renameDirs : List GoPath
  renameChildren : List GoPath
deriving DecidableEq, Repr

/-- `d, _ := digest(fullPath)`: a digest error is swallowed, leaving a nil
fingerprint. -/
def digestVal (fsys : FS) (path : GoPath) : Option (List Nat) :=
  match digest fsys path with
  | .ok d => d
  | .error _ => none

/-- First loop of `watch` (watch.go:65): resolve each input path, skip it
when already present or user-ignored, otherwise register it, digest it and
insert it.  `addErr` models which `w.Add` calls fail.  An error carries
the watcher state at the moment of return (always closed by the source). -/
def watchLoop1 (cwd : Option GoPath) (ui : userIgnorer) (fsys : FS)
    (addErr : GoPath → Option GoErr) :
    List GoPath → List (GoPath × Option (List Nat)) → Watcher →
    Except (GoErr × Watcher) (List (GoPath × Option (List Nat)) × Watcher)
  | [], m, w => .ok (m, w)
  | p :: rest, m, w =>
    match goAbs cwd p with
    | none =>
      .error ("unable to get current working directory while working with user-watched paths",
              { w with closed := true })
    | some fullPath =>
      if (m.lookup fullPath).isSome || ui.IsIgnored cwd p then
        watchLoop1 cwd ui fsys addErr rest m w
      else
        match addErr fullPath with
        | some e => .error ("unable to watch: " ++ e, { w with closed := true })
        | none =>
          watchLoop1 cwd ui fsys addErr rest (m ++ [(fullPath, digestVal fsys fullPath)])
            { w with adds := w.adds ++ [fullPath] }

/-- Second loop of `watch` (watch.go:102): for each watched path, record it
among the hidden-but-included files when its base name starts with `.`;
when its parent directory is not itself watched, register the parent (once
per distinct parent) and record the rename-tracking relationship. -/
def watchLoop2 (userPaths : List (GoPath × Option (List Nat)))
    (addErr : GoPath → Option GoErr) :
    List GoPath → List GoPath → List GoPath → List GoPath → Watcher →
    Except (GoErr × Watcher) (List GoPath × List GoPath × List GoPath × Watcher)
  | [], hid, rd, rc, w => .ok (hid, rd, rc, w)
  | fullPath :: rest, hid, rd, rc, w =>
    let hid1 := if hasPre ['.'] (baseName fullPath) then hid ++ [fullPath] else hid
    let dirPath := goDir fullPath
    if (userPaths.lookup dirPath).isNone && !dirPath.isEmpty then
      if !rd.contains dirPath then
        match addErr dirPath with
        | some e =>
          .error ("unable to watch rename-watched-only dir: " ++ e, { w with closed := true })
        | none =>
          watchLoop2 userPaths addErr rest hid1 (rd ++ [dirPath]) (rc ++ [fullPath])
            { w with adds := w.adds ++ [dirPath] }
      else
        watchLoop2 userPaths addErr rest hid1 rd (rc ++ [fullPath]) w
    else
      watchLoop2 userPaths addErr rest hid1 rd rc w

/-- The full outcome of a `watch` call: the returned value, the final state
of the fsnotify watcher when one was created, the assembled smart ignorer,
and whether the background dispatch goroutine was started. -/
structure watchOut where
  res : Except GoErr (List (GoPath × Option (List Nat)))
  w : Option Watcher
  ig : Option smartIgnorer
  spawned : Bool

/-- Model of `watch` (watch.go:47).  `newErr` models a failing
`fsnotify.NewWatcher`; `addErr` models failing `w.Add` calls; `cwd` models
the working directory used by `filepath.Abs`. -/
def watch (cwd : Option GoPath) (fsys : FS) (newErr : Option GoErr)
    (addErr : GoPath → Option GoErr) (inputPaths ignoredPaths : List GoPath) : watchOut :=
  match createUserIgnorer cwd ignoredPaths with
  | .error e => ⟨.error e, none, none, false⟩
  | .ok ui =>
    match newErr with
    | some e => ⟨.error ("unable to create watcher: " ++ e), none, none, false⟩
    | none =>
      match watchLoop1 cwd ui fsys addErr inputPaths [] ⟨[], false⟩ with
      | .error (e, wf) => ⟨.error e, some wf, none, false⟩
      | .ok (userPaths, w1) =>
        match watchLoop2 userPaths addErr (userPaths.map Prod.fst) [] [] [] w1 with
        | .error (e, wf) => ⟨.error e, some wf, none, false⟩
        | .ok (hid, rd, rc, w2) =>
          ⟨.ok userPaths, some w2, some ⟨hid, ui, rd, rc⟩, true⟩

/-! ### The event dispatch loop (`listenForEvents` in watch.go) -/

/-- A raw fsnotify event: a path and an operation bitmask. -/
structure FsnotifyEvent where
  name : GoPath
  op : Nat
deriving DecidableEq, Repr

/-- The wrapped output record (`event` in watch.go:133): the forwarding
time and the raw event. -/
structure event where
  time : Nat
  Event : FsnotifyEvent
deriving DecidableEq, Repr

/-- One outcome of the `select`: a value (or closure notification) received
from `w.Events` or from `w.Errors`; `errMsg none` is a nil error. -/
inductive ChanMsg where
  | ev (e : FsnotifyEvent)
  | evClosed
  | errMsg (e : Option GoErr)
  | errClosed
deriving DecidableEq, Repr

/-- An operation the loop performs on the output channel `cmdCh`. -/
inductive ChanAct where
  | send (e : event)
  | closeCh
deriving DecidableEq, Repr

/-- A log line emitted by the loop. -/
inductive LogEntry where
  | unignoredChange (e : FsnotifyEvent)
  | watchError (err : GoErr)
deriving DecidableEq, Repr

/-- What a (finite) run of the loop did: the `cmdCh` operations in order,
the log lines in order, and whether the loop returned within the given
input sequence. -/
structure LoopOut where
  acts : List ChanAct
  logs : List LogEntry
  term : Bool
deriving DecidableEq, Repr

/-- Model of `listenForEvents` (watch.go:138) over a linearised sequence of
`select` outcomes.  `clock` gives the value of `time.Now()` at the n-th
send (the counter argument); `ig` is the `Ignorer` argument.  An ignored
event is dropped; an unignored one is logged when `verbose` is set and then
sent, stamped with the current time.  A closed events channel makes the
loop return; a closed errors channel or a nil error makes it close `cmdCh`
and return; a non-nil error is logged and the loop continues. -/
def listenForEvents (verbose : Bool) (clock : Nat → Nat) (ig : GoPath → Bool) :
    List ChanMsg → Nat → LoopOut
  | [], _ => ⟨[], [], false⟩
  | .ev e :: rest, n =>
    if ig e.name then listenForEvents verbose clock ig rest n
    else
      let r := listenForEvents verbose clock ig rest (n + 1)
      ⟨.send ⟨clock n, e⟩ :: r.acts,
       (if verbose then [.unignoredChange e] else []) ++ r.logs, r.term⟩
  | .evClosed :: _, _ => ⟨[], [], true⟩
  | .errMsg (some er) :: rest, n =>
    let r := listenForEvents verbose clock ig rest n
    ⟨r.acts, .watchError er :: r.logs, r.term⟩
  | .errMsg none :: _, _ => ⟨[.closeCh], [], true⟩
  | .errClosed :: _, _ => ⟨[.closeCh], [], true⟩

/-- The messages on which the source loop returns: either channel closing,
or a nil error. -/
def isTerminal : ChanMsg → Bool
  | .evClosed => true
  | .errClosed => true
  | .errMsg none => true
  | _ => false

/-- The sends among a list of channel operations. -/
def sendsOf (acts : List ChanAct) : List event :=
  acts.filterMap (fun a => match a with | .send e => some e | .closeCh => none)

/-- The raw events the loop forwards: those received before the first
terminating message whose path the ignorer does not flag, in order. -/
def forwardedRaw (ig : GoPath → Bool) : List ChanMsg → List FsnotifyEvent
  | .ev e :: rest => if ig e.name then forwardedRaw ig rest else e :: forwardedRaw ig rest
  | .errMsg (some _) :: rest => forwardedRaw ig rest
  | _ => []

/-- Stamp a list of raw events with consecutive clock samples starting at
counter `n`. -/
def stampFrom (clock : Nat → Nat) : Nat → List FsnotifyEvent → List event
  | _, [] => []
  | n, e :: rest => ⟨clock n, e⟩ :: stampFrom clock (n + 1) rest

/-! ### Theorems about the dispatch loop -/

/-- The runs after which the loop has closed `cmdCh`: those whose first
terminating message is the errors channel closing or a nil error (but not
the events channel closing). -/
def closesOn (msgs : List ChanMsg) : Bool :=
  match msgs.find? isTerminal with
  | some .evClosed => false
  | some _ => true
  | none => false

/-- C9: the verbose flag changes neither the channel operations nor
termination of the dispatch loop; it only controls logging. -/
theorem verbose_no_influence (v1 v2 : Bool) (clock : Nat → Nat) (ig : GoPath → Bool)
    (msgs : List ChanMsg) (n : Nat) :
    (listenForEvents v1 clock ig msgs n).acts = (listenForEvents v2 clock ig msgs n).acts ∧
      (listenForEvents v1 clock ig msgs n).term = (listenForEvents v2 clock ig msgs n).term := by
  induction msgs generalizing n with
  | nil => simp [listenForEvents]
  | cons m rest ih =>
    cases m with
    | ev e =>
      by_cases h : ig e.name
      · simpa [listenForEvents, h] using ih n
      · simpa [listenForEvents, h] using ih (n + 1)
    | evClosed => simp [listenForEvents]
    | errMsg er =>
      cases er with
      | none => simp [listenForEvents]
      | some e => simpa [listenForEvents] using ih n
    | errClosed => simp [listenForEvents]

/-- C10: in every run of the dispatch loop, nothing follows a close of the
output channel among its channel operations — in particular the loop never
sends on the channel it has closed. -/
theorem no_act_after_close (v : Bool) (clock : Nat → Nat) (ig : GoPath → Bool)
    (msgs : List ChanMsg) (n : Nat) :
    ((listenForEvents v clock ig msgs n).acts.dropWhile
      (fun a => a != ChanAct.closeCh)).length ≤ 1 := by
  induction msgs generalizing n with
  | nil => simp [listenForEvents]
  | cons m rest ih =>
    cases m with
    | ev e =>
      by_cases h : ig e.name
      · simpa [listenForEvents, h] using ih n
      · simpa [listenForEvents, h, List.dropWhile] using ih (n + 1)
    | evClosed => simp [listenForEvents, List.dropWhile]
    | errMsg er =>
      cases er with
      | none => simp [listenForEvents, List.dropWhile]
      | some e => simpa [listenForEvents] using ih n
    | errClosed => simp [listenForEvents, List.dropWhile]

/-- C6: the sends of the dispatch loop are exactly the raw events received
before the first terminating message whose path the ignorer does not flag,
in arrival order, each wrapped with the clock value sampled at its
forwarding; ignored events produce no send. -/
theorem loop_forwards_filtered (v : Bool) (clock : Nat → Nat) (ig : GoPath → Bool)
    (msgs : List ChanMsg) (n : Nat) :
    sendsOf (listenForEvents v clock ig msgs n).acts =
      stampFrom clock n (forwardedRaw ig msgs) := by
  induction msgs generalizing n with
  | nil => simp [listenForEvents, forwardedRaw, sendsOf, stampFrom]
  | cons m rest ih =>
    cases m with
    | ev e =>
      by_cases h : ig e.name
      · simpa [listenForEvents, forwardedRaw, h] using ih n
      · simpa [listenForEvents, forwardedRaw, h, sendsOf, stampFrom] using ih (n + 1)
    | evClosed => simp [listenForEvents, forwardedRaw, sendsOf, stampFrom]
    | errMsg er =>
      cases er with
      | none => simp [listenForEvents, forwardedRaw, sendsOf, stampFrom]
      | some e => simpa [listenForEvents, forwardedRaw] using ih n
    | errClosed => simp [listenForEvents, forwardedRaw, sendsOf, stampFrom]

/-- C1, counterexample: when the events channel closes first, the loop
terminates but returns without closing the output channel, contradicting
"in every such case the loop closes the output channel before returning". -/
theorem events_closed_no_close_cex :
    (listenForEvents false (fun k => k) (fun _ => false) [ChanMsg.evClosed] 0).term = true ∧
      (listenForEvents false (fun k => k) (fun _ => false)
        [ChanMsg.evClosed] 0).acts.contains ChanAct.closeCh = false := by
  decide

/-- C1, amended: the loop terminates exactly when one of the two input
channels closes or a nil error is received; it closes the output channel
before returning exactly when the first such terminating message is the
errors channel closing or a nil error — on the events channel closing it
returns without closing the output channel. -/
theorem loop_termination (v : Bool) (clock : Nat → Nat) (ig : GoPath → Bool)
    (msgs : List ChanMsg) (n : Nat) :
    (listenForEvents v clock ig msgs n).term = msgs.any isTerminal ∧
      (listenForEvents v clock ig msgs n).acts.contains ChanAct.closeCh = closesOn msgs := by
  induction msgs generalizing n with
  | nil => simp [listenForEvents, closesOn, List.find?]
  | cons m rest ih =>
    cases m with
    | ev e =>
      by_cases h : ig e.name
      · simpa [listenForEvents, closesOn, isTerminal, List.find?, h] using ih n
      · simpa [listenForEvents, closesOn, isTerminal, List.find?, h] using ih (n + 1)
    | evClosed => simp [listenForEvents, closesOn, isTerminal, List.find?]
    | errMsg er =>
      cases er with
      | none => simp [listenForEvents, closesOn, isTerminal, List.find?]
      | some e => simpa [listenForEvents, closesOn, isTerminal, List.find?] using ih n
    | errClosed => simp [listenForEvents, closesOn, isTerminal, List.find?]

/-! ### Theorems about the digest engine -/

/-- C4: a regular readable file with more content than the 20 MiB cap
digests to a nil fingerprint with no error (never a partial hash), and a
directory digests to a nil fingerprint with no error as well. -/
theorem digest_too_large (fsys : FS) (path : GoPath) :
    (∀ content, fsys path = .file content none →
      maxHashedFileSize < content.length → digest fsys path = .ok none) ∧
      (fsys path = .dir → digest fsys path = .ok none) := by
  constructor
  · intro content hf hlen
    simp [digest, hf, hlen]
  · intro hd
    simp [digest, hd]

/-- Witness for `digest_too_large`: a 20 MiB + 1 byte file and a
directory. -/
theorem digest_too_large_witness :
    digest (fun _ => FileModel.file (List.replicate 20971521 0) none) ['f'] = .ok none ∧
      digest (fun _ => FileModel.dir) ['d'] = .ok none :=
  ⟨(digest_too_large _ ['f']).1 (List.replicate 20971521 0) rfl
      (by rw [List.length_replicate, maxHashedFileSize]; norm_num),
    (digest_too_large _ ['d']).2 rfl⟩

/-- C8: a regular readable file whose content is at most the 20 MiB cap
digests to the SHA-256 of its whole content (a non-nil fingerprint) with
no error; the nil-fingerprint-no-error outcome arises only for directories
and for files strictly larger than the cap. -/
theorem digest_small_file_full_hash (fsys : FS) (path : GoPath) :
    (∀ content, fsys path = .file content none → content.length ≤ maxHashedFileSize →
      digest fsys path = .ok (some (sha256 content))) ∧
      (digest fsys path = .ok none →
        fsys path = .dir ∨
          ∃ content, fsys path = .file content none ∧ maxHashedFileSize < content.length) := by
  constructor
  · intro content hf hlen
    simp [digest, hf, Nat.not_lt.mpr hlen, List.take_of_length_le hlen]
  · intro hnil
    match hfp : fsys path with
    | .openErr e => simp [digest, hfp] at hnil
    | .statErr e => simp [digest, hfp] at hnil
    | .dir => exact Or.inl rfl
    | .file content (some e) => simp [digest, hfp] at hnil
    | .file content none =>
      by_cases hlen : maxHashedFileSize < content.length
      · exact Or.inr ⟨content, rfl, hlen⟩
      · simp [digest, hfp, hlen] at hnil

/-- Witness for `digest_small_file_full_hash`: a three-byte file hashes in
full, and a directory realises the nil-no-error case. -/
theorem digest_small_file_full_hash_witness :
    digest (fun _ => FileModel.file [1, 2, 3] none) ['f'] = .ok (some (sha256 [1, 2, 3])) ∧
      ((fun _ => FileModel.dir : FS) ['d'] = .dir ∨
        ∃ content, (fun _ => FileModel.dir : FS) ['d'] = .file content none ∧
          maxHashedFileSize < content.length) :=
  ⟨(digest_small_file_full_hash _ ['f']).1 [1, 2, 3] rfl (by decide),
    (digest_small_file_full_hash (fun _ => FileModel.dir) ['d']).2 rfl⟩

/-! ### Theorems about watch construction errors -/

/-- Every error exit of the first registration loop closes the watcher. -/
theorem watchLoop1_error_closed (cwd : Option GoPath) (ui : userIgnorer) (fsys : FS)
    (addErr : GoPath → Option GoErr) :
    ∀ ins m w e wf, watchLoop1 cwd ui fsys addErr ins m w = .error (e, wf) →
      wf.closed = true := by
  intro ins
  induction ins with
  | nil => intro m w e wf h; simp [watchLoop1] at h
  | cons p rest ih =>
    intro m w e wf h
    unfold watchLoop1 at h
    split at h
    · rw [Except.error.injEq, Prod.mk.injEq] at h
      rw [← h.2]
    · split at h
      · exact ih _ _ _ _ h
      · split at h
        · rw [Except.error.injEq, Prod.mk.injEq] at h
          rw [← h.2]
        · exact ih _ _ _ _ h

/-- Every error exit of the rename-parent registration loop closes the
watcher. -/
theorem watchLoop2_error_closed (userPaths : List (GoPath × Option (List Nat)))
    (addErr : GoPath → Option GoErr) :
    ∀ todo hid rd rc w e wf,
      watchLoop2 userPaths addErr todo hid rd rc w = .error (e, wf) →
        wf.closed = true := by
  intro todo
  induction todo with
  | nil => intro hid rd rc w e wf h; simp [watchLoop2] at h
  | cons p rest ih =>
    intro hid rd rc w e wf h
    simp only [watchLoop2] at h
    split at h
    · split at h
      · split at h
        · rw [Except.error.injEq, Prod.mk.injEq] at h
          rw [← h.2]
        · exact ih _ _ _ _ _ _ h
      · exact ih _ _ _ _ _ _ h
    · exact ih _ _ _ _ _ _ h

/-- C7: whenever `watch` returns an error, no background dispatch task has
been started, and if the fsnotify watcher had been created it has been
closed before the error is returned. -/
theorem watch_error_closes (cwd : Option GoPath) (fsys : FS) (newErr : Option GoErr)
    (addErr : GoPath → Option GoErr) (ins igns : List GoPath) (e : GoErr)
    (h : (watch cwd fsys newErr addErr ins igns).res = .error e) :
    (watch cwd fsys newErr addErr ins igns).spawned = false ∧
      ∀ wst, (watch cwd fsys newErr addErr ins igns).w = some wst → wst.closed = true := by
  unfold watch at h ⊢
  split at h
  · simp
  · split at h
    · simp
    · split at h
      · rename_i e3 wf heq3
        refine ⟨rfl, fun wst hw => ?_⟩
        simp only [Option.some.injEq] at hw
        rw [← hw]
        exact watchLoop1_error_closed _ _ _ _ _ _ _ _ _ heq3
      · split at h
        · rename_i e4 wf heq4
          refine ⟨rfl, fun wst hw => ?_⟩
          simp only [Option.some.injEq] at hw
          rw [← hw]
          exact watchLoop2_error_closed _ _ _ _ _ _ _ _ _ heq4
        · simp at h

/-- Witness for `watch_error_closes`: a failing registration of the single
input path aborts construction with the watcher closed and no task
started. -/
theorem watch_error_closes_witness :
    (watch (some "/w".toList) (fun _ => FileModel.dir) none (fun _ => some "boom")
        ["/a".toList] []).spawned = false ∧
      ∀ wst, (watch (some "/w".toList) (fun _ => FileModel.dir) none (fun _ => some "boom")
        ["/a".toList] []).w = some wst → wst.closed = true :=
  watch_error_closes _ _ _ _ _ _ "unable to watch: boom" (by rfl)

/-! ### Theorems about the rename-tracking construction -/

/-- `filepath.Dir` never yields the empty string. -/
theorem goDir_ne_nil (p : GoPath) : goDir p ≠ [] := by
  simp only [goDir]
  split
  · simp
  · split
    · simp
    · rename_i h2
      simpa [List.isEmpty_iff] using h2

/-- A successful first registration loop extends the map with new entries
and registers exactly their keys, in order. -/
theorem watchLoop1_ok_adds (cwd : Option GoPath) (ui : userIgnorer) (fsys : FS)
    (addErr : GoPath → Option GoErr) :
    ∀ ins m w ups w1, watchLoop1 cwd ui fsys addErr ins m w = .ok (ups, w1) →
      ∃ δ, ups = m ++ δ ∧ w1.adds = w.adds ++ δ.map Prod.fst := by
  intro ins
  induction ins with
  | nil =>
    intro m w ups w1 h
    simp only [watchLoop1, Except.ok.injEq, Prod.mk.injEq] at h
    exact ⟨[], by simp [← h.1, ← h.2]⟩
  | cons p rest ih =>
    intro m w ups w1 h
    simp only [watchLoop1] at h
    split at h
    · exact absurd h (by simp)
    · split at h
      · exact ih _ _ _ _ h
      · split at h
        · exact absurd h (by simp)
        · rename_i x1 fullPath habs hnot x2 hadd
          obtain ⟨δ, h1, h2⟩ := ih _ _ _ _ h
          exact ⟨(fullPath, digestVal fsys fullPath) :: δ, by simp [h1], by simp [h2]⟩

/-- Invariants of a successful rename-parent loop: the recorded children
are exactly the processed paths whose parent is not watched; the rename
directories and the watcher additions grow by one identical block; the
rename-directory set stays duplicate-free; parents of recorded children
are recorded directories; and every recorded directory is the parent of a
processed path. -/
theorem watchLoop2_ok_spec (userPaths : List (GoPath × Option (List Nat)))
    (addErr : GoPath → Option GoErr) :
    ∀ todo hid rd rc w hid2 rd2 rc2 w2,
      watchLoop2 userPaths addErr todo hid rd rc w = .ok (hid2, rd2, rc2, w2) →
        rc2 = rc ++ todo.filter (fun q => (userPaths.lookup (goDir q)).isNone) ∧
          (∃ δ, rd2 = rd ++ δ ∧ w2.adds = w.adds ++ δ) ∧
          (rd.Nodup → rd2.Nodup) ∧
          ((∀ q, q ∈ rc → goDir q ∈ rd) → ∀ q, q ∈ rc2 → goDir q ∈ rd2) ∧
          (∀ x, x ∈ rd2 → x ∈ rd ∨ ∃ q, q ∈ todo ∧ x = goDir q) := by
  intro todo
  induction todo with
  | nil =>
    intro hid rd rc w hid2 rd2 rc2 w2 h
    simp only [watchLoop2, Except.ok.injEq, Prod.mk.injEq] at h
    obtain ⟨h1, h2, h3, h4⟩ := h
    subst h2 h3 h4
    exact ⟨by simp, ⟨[], by simp, by simp⟩, fun hn => hn, fun hmono => by simpa using hmono,
      fun x hx => Or.inl hx⟩
  | cons p rest ih =>
    intro hid rd rc w hid2 rd2 rc2 w2 h
    simp only [watchLoop2] at h
    split at h
    · rename_i houter
      split at h
      · rename_i hinner
        split at h
        · simp at h
        · rename_i x2 hadd
          obtain ⟨hrc, ⟨δ, hrd, hadds⟩, hnd, hpres, hmem⟩ := ih _ _ _ _ _ _ _ _ h
          have hcondp : (userPaths.lookup (goDir p)).isNone = true := by
            simp only [Bool.and_eq_true] at houter
            exact houter.1
          have hgd_notin : goDir p ∉ rd := by simpa using hinner
          refine ⟨by simp [hrc, List.filter_cons, hcondp],
            ⟨goDir p :: δ, by simp [hrd], by simp [hadds]⟩, ?_, ?_, ?_⟩
          · intro hnodup
            apply hnd
            simp [List.nodup_append, hnodup, hgd_notin]
          · intro hmono q hq
            refine hpres ?_ q hq
            intro r hr
            rcases List.mem_append.mp hr with h1 | h1
            · exact List.mem_append_left _ (hmono r h1)
            · simp only [List.mem_singleton] at h1
              subst h1
              exact List.mem_append_right _ (by simp)
          · intro x hx
            rcases hmem x hx with h1 | ⟨q, hq, hgq⟩
            · rcases List.mem_append.mp h1 with h2 | h2
              · exact Or.inl h2
              · simp only [List.mem_singleton] at h2
                exact Or.inr ⟨p, by simp, h2⟩
            · exact Or.inr ⟨q, by simp [hq], hgq⟩
      · rename_i hinner
        obtain ⟨hrc, ⟨δ, hrd, hadds⟩, hnd, hpres, hmem⟩ := ih _ _ _ _ _ _ _ _ h
        have hcondp : (userPaths.lookup (goDir p)).isNone = true := by
          simp only [Bool.and_eq_true] at houter
          exact houter.1
        have hgd_in : goDir p ∈ rd := by simpa using hinner
        refine ⟨by simp [hrc, List.filter_cons, hcondp], ⟨δ, hrd, hadds⟩, hnd, ?_, ?_⟩
        · intro hmono q hq
          refine hpres ?_ q hq
          intro r hr
          rcases List.mem_append.mp hr with h1 | h1
          · exact hmono r h1
          · simp only [List.mem_singleton] at h1
            subst h1
            exact hgd_in
        · intro x hx
          rcases hmem x hx with h1 | ⟨q, hq, hgq⟩
          · exact Or.inl h1
          · exact Or.inr ⟨q, by simp [hq], hgq⟩
    · rename_i houter
      obtain ⟨hrc, hdelta, hnd, hpres, hmem⟩ := ih _ _ _ _ _ _ _ _ h
      have hne : (goDir p).isEmpty = false := by
        cases hgd : goDir p with
        | nil => exact absurd hgd (goDir_ne_nil p)
        | cons a l => rfl
      have hcondp : (userPaths.lookup (goDir p)).isNone = false := by
        simpa [hne] using houter
      refine ⟨by simp [hrc, List.filter_cons, hcondp], hdelta, hnd, hpres, ?_⟩
      intro x hx
      rcases hmem x hx with h1 | ⟨q, hq, hgq⟩
      · exact Or.inl h1
      · exact Or.inr ⟨q, by simp [hq], hgq⟩

/-- C3: after a successful `watch`, a path is in `renameChildren` iff it is
a key of the returned map whose parent directory is not itself a key; the
parent of every `renameChildren` entry is in `renameDirs`; and the watcher
registrations are the user paths followed by the distinct rename parents,
each registered at most once. -/
theorem watch_rename_state (cwd : Option GoPath) (fsys : FS) (newErr : Option GoErr)
    (addErr : GoPath → Option GoErr) (ins igns : List GoPath)
    (ups : List (GoPath × Option (List Nat))) (ig : smartIgnorer) (wfin : Watcher)
    (hres : (watch cwd fsys newErr addErr ins igns).res = .ok ups)
    (hig : (watch cwd fsys newErr addErr ins igns).ig = some ig)
    (hw : (watch cwd fsys newErr addErr ins igns).w = some wfin) :
    (∀ p, p ∈ ig.renameChildren ↔
        p ∈ ups.map Prod.fst ∧ (ups.lookup (goDir p)).isNone = true) ∧
      (∀ p, p ∈ ig.renameChildren → goDir p ∈ ig.renameDirs) ∧
      wfin.adds = ups.map Prod.fst ++ ig.renameDirs ∧
      ig.renameDirs.Nodup := by
  unfold watch at hres hig hw
  split at hres
  · simp at hres
  · rename_i ui hequi
    split at hres
    · simp at hres
    · split at hres
      · simp at hres
      · rename_i ups0 w1 heq3
        split at hres
        · simp at hres
        · rename_i hid rd rc w2 heq4
          simp only [Except.ok.injEq] at hres
          subst hres
          simp only [hequi, heq3, heq4, Option.some.injEq] at hig hw
          subst hig
          subst hw
          obtain ⟨δ, hδ1, hδ2⟩ := watchLoop1_ok_adds _ _ _ _ _ _ _ _ _ heq3
          simp only [List.nil_append] at hδ1
          subst hδ1
          obtain ⟨hrc, ⟨δ2, hrd, hadds⟩, hnd, hpres, hmem⟩ :=
            watchLoop2_ok_spec _ _ _ _ _ _ _ _ _ _ _ heq4
          simp only [List.nil_append] at hrc hrd
          subst hrd
          refine ⟨?_, ?_, ?_, ?_⟩
          · intro p
            simp only [hrc, List.mem_filter]
          · intro p hp
            exact hpres (by intro q hq; cases hq) p hp
          · rw [hadds, hδ2]
            simp
          · exact hnd (by simp)

/-- Witness for `watch_rename_state`: watching `/a/b` and `/a/c` derives
the single rename parent `/a`, registered once after the two user paths. -/
theorem watch_rename_state_witness :
    (∀ p, p ∈ (⟨[], ⟨[], []⟩, ["/a".toList], ["/a/b".toList, "/a/c".toList]⟩ :
          smartIgnorer).renameChildren ↔
        p ∈ ([("/a/b".toList, (none : Option (List Nat))),
              ("/a/c".toList, none)]).map Prod.fst ∧
          (([("/a/b".toList, (none : Option (List Nat))),
             ("/a/c".toList, none)]).lookup (goDir p)).isNone = true) ∧
      (∀ p, p ∈ (⟨[], ⟨[], []⟩, ["/a".toList], ["/a/b".toList, "/a/c".toList]⟩ :
          smartIgnorer).renameChildren →
        goDir p ∈ (⟨[], ⟨[], []⟩, ["/a".toList], ["/a/b".toList, "/a/c".toList]⟩ :
          smartIgnorer).renameDirs) ∧
      (⟨["/a/b".toList, "/a/c".toList, "/a".toList], false⟩ : Watcher).adds =
        ([("/a/b".toList, (none : Option (List Nat))), ("/a/c".toList, none)]).map Prod.fst ++
          (⟨[], ⟨[], []⟩, ["/a".toList], ["/a/b".toList, "/a/c".toList]⟩ :
            smartIgnorer).renameDirs ∧
      (⟨[], ⟨[], []⟩, ["/a".toList], ["/a/b".toList, "/a/c".toList]⟩ :
        smartIgnorer).renameDirs.Nodup :=
  watch_rename_state (some "/w".toList) (fun _ => FileModel.dir) none (fun _ => none)
    ["/a/b".toList, "/a/c".toList] []
    [("/a/b".toList, none), ("/a/c".toList, none)]
    ⟨[], ⟨[], []⟩, ["/a".toList], ["/a/b".toList, "/a/c".toList]⟩
    ⟨["/a/b".toList, "/a/c".toList, "/a".toList], false⟩
    (by rfl) (by rfl) (by rfl)

/-! ### Theorems about the user ignorer -/

/-- `hasPre` is the existence of a completing suffix. -/
theorem hasPre_iff : ∀ a b : List Char, hasPre a b = true ↔ ∃ t, b = a ++ t := by
  intro a
  induction a with
  | nil => intro b; simp [hasPre]
  | cons x as ih =>
    intro b
    cases b with
    | nil => simp [hasPre]
    | cons y bs =>
      simp only [hasPre, Bool.and_eq_true, beq_iff_eq, ih, List.cons_append, List.cons.injEq]
      constructor
      · rintro ⟨h1, t, h2⟩
        exact ⟨t, h1.symm, h2⟩
      · rintro ⟨t, h1, h2⟩
        exact ⟨h1.symm, t, h2⟩

/-- A list leads every extension of itself. -/
theorem hasPre_self_append (a b : List Char) : hasPre a (a ++ b) = true :=
  (hasPre_iff a (a ++ b)).mpr ⟨b, rfl⟩

/-- Leading segments compose transitively. -/
theorem hasPre_trans {a b c : List Char} (h1 : hasPre a b = true)
    (h2 : hasPre b c = true) : hasPre a c = true := by
  obtain ⟨t1, ht1⟩ := (hasPre_iff a b).mp h1
  obtain ⟨t2, ht2⟩ := (hasPre_iff b c).mp h2
  exact (hasPre_iff a c).mpr ⟨t1 ++ t2, by rw [ht2, ht1, List.append_assoc]⟩

/-- Resolution against an absolute working directory yields absolute
paths. -/
theorem goAbs_abs {c : GoPath} (hc : isAbsPath c = true) {p fp : GoPath}
    (h : goAbs (some c) p = some fp) : isAbsPath fp = true := by
  unfold goAbs at h
  split at h
  · rename_i habs
    simp only [Option.some.injEq] at h
    rw [← h]
    exact habs
  · simp only [Option.map_some', Option.some.injEq] at h
    rw [← h]
    obtain ⟨t, ht⟩ := (hasPre_iff _ _).mp hc
    exact (hasPre_iff _ _).mpr ⟨t ++ '/' :: p, by rw [ht]; simp⟩

/-- Resolving an already absolute path returns it unchanged. -/
theorem goAbs_of_abs (cwd : Option GoPath) {fp : GoPath} (h : isAbsPath fp = true) :
    goAbs cwd fp = some fp := by
  simp [goAbs, h]

/-- Resolution with a working directory present always succeeds. -/
theorem goAbs_isSome (c : GoPath) (p : GoPath) : ∃ fp, goAbs (some c) p = some fp := by
  unfold goAbs
  split
  · exact ⟨p, rfl⟩
  · exact ⟨c ++ '/' :: p, rfl⟩

/-- Every exact-match entry built by the ignorer-construction loop is an
absolute path whose directory-prefix form was recorded alongside it. -/
theorem createUserIgnorerAux_spec (c : GoPath) (hc : isAbsPath c = true) :
    ∀ entries ign dirs ui,
      createUserIgnorerAux (some c) entries ign dirs = .ok ui →
        (∀ p, p ∈ ign → dirForm p ∈ dirs ∧ isAbsPath p = true) →
        ∀ p, p ∈ ui.ignored → dirForm p ∈ ui.ignoredDirs ∧ isAbsPath p = true := by
  intro entries
  induction entries with
  | nil =>
    intro ign dirs ui h hinv
    simp only [createUserIgnorerAux, Except.ok.injEq] at h
    rw [← h]
    exact hinv
  | cons e rest ih =>
    intro ign dirs ui h hinv
    simp only [createUserIgnorerAux] at h
    split at h
    · exact ih _ _ _ h hinv
    · split at h
      · simp at h
      · rename_i x path heq
        refine ih _ _ _ h ?_
        intro q hq
        rcases List.mem_append.mp hq with h1 | h1
        · exact ⟨List.mem_append_left _ (hinv q h1).1, (hinv q h1).2⟩
        · simp only [List.mem_singleton] at h1
          subst h1
          exact ⟨List.mem_append_right _ (by simp), goAbs_abs hc heq⟩

/-- C2: for the user ignorer built from an ignore list, every path in the
exact-match set is flagged, every path resolving under the recorded
directory form of an exact-match entry (a descendant) is flagged, and in
general `IsIgnored` flags a path exactly when its resolved absolute form
is in the exact-match set or starts with one of the recorded prefixes. -/
theorem userIgnorer_ignores (c : GoPath) (hc : isAbsPath c = true)
    (igns : List GoPath) (ui : userIgnorer)
    (hui : createUserIgnorer (some c) igns = .ok ui) :
    (∀ p, p ∈ ui.ignored → ui.IsIgnored (some c) p = true) ∧
      (∀ p q fq, p ∈ ui.ignored → goAbs (some c) q = some fq →
        hasPre (dirForm p) fq = true → ui.IsIgnored (some c) q = true) ∧
      (∀ q fq, goAbs (some c) q = some fq →
        ui.IsIgnored (some c) q =
          (ui.ignored.contains fq || ui.ignoredDirs.any (fun d => hasPre d fq))) := by
  have hspec := createUserIgnorerAux_spec c hc igns [] [] ui hui
    (by intro p hp; cases hp)
  refine ⟨?_, ?_, ?_⟩
  · intro p hp
    have habs := (hspec p hp).2
    unfold userIgnorer.IsIgnored
    rw [goAbs_of_abs _ habs]
    simp [hp]
  · intro p q fq hp hq hpre
    have hd := (hspec p hp).1
    unfold userIgnorer.IsIgnored
    rw [hq]
    simp only [Bool.or_eq_true, List.any_eq_true]
    exact Or.inr ⟨dirForm p, hd, hpre⟩
  · intro q fq hq
    unfold userIgnorer.IsIgnored
    rw [hq]

/-- Witness for `userIgnorer_ignores`: the ignore list `["/a"]` flags the
entry itself, flags the descendant `/a/b`, and matches the resolved-form
characterisation on `/x`. -/
theorem userIgnorer_ignores_witness :
    (∀ p, p ∈ (⟨["/a".toList], ["/a/".toList]⟩ : userIgnorer).ignored →
        (⟨["/a".toList], ["/a/".toList]⟩ : userIgnorer).IsIgnored (some "/w".toList) p = true) ∧
      (∀ p q fq, p ∈ (⟨["/a".toList], ["/a/".toList]⟩ : userIgnorer).ignored →
        goAbs (some "/w".toList) q = some fq → hasPre (dirForm p) fq = true →
        (⟨["/a".toList], ["/a/".toList]⟩ : userIgnorer).IsIgnored (some "/w".toList) q = true) ∧
      (∀ q fq, goAbs (some "/w".toList) q = some fq →
        (⟨["/a".toList], ["/a/".toList]⟩ : userIgnorer).IsIgnored (some "/w".toList) q =
          ((⟨["/a".toList], ["/a/".toList]⟩ : userIgnorer).ignored.contains fq ||
            (⟨["/a".toList], ["/a/".toList]⟩ : userIgnorer).ignoredDirs.any
              (fun d => hasPre d fq))) :=
  userIgnorer_ignores "/w".toList (by decide) ["/a".toList]
    ⟨["/a".toList], ["/a/".toList]⟩ (by rfl)

/-! ### Theorems about skipping ignored input paths -/

/-- The head surviving a `dropWhile` fails the predicate. -/
theorem dropWhile_head_false (p : Char → Bool) :
    ∀ l a rest, List.dropWhile p l = a :: rest → p a = false := by
  intro l
  induction l with
  | nil => intro a rest h; simp at h
  | cons x xs ih =>
    intro a rest h
    by_cases hx : p x
    · rw [List.dropWhile_cons] at h
      simp only [hx, if_true] at h
      exact ih _ _ h
    · rw [List.dropWhile_cons] at h
      simp only [hx, if_false] at h
      rw [← (List.cons.injEq _ _ _ _ |>.mp h).1]
      simpa using hx

/-- `dropWhile` keeps any element failing the predicate. -/
theorem dropWhile_ne_nil_of_mem (p : Char → Bool) :
    ∀ l a, a ∈ l → p a = false → List.dropWhile p l ≠ [] := by
  intro l
  induction l with
  | nil => intro a ha; cases ha
  | cons x xs ih =>
    intro a ha hpa
    by_cases hx : p x
    · rcases List.mem_cons.mp ha with h1 | h1
      · subst h1
        rw [hx] at hpa
        cases hpa
      · rw [List.dropWhile_cons]
        simp only [hx, if_true]
        exact ih a h1 hpa
    · rw [List.dropWhile_cons]
      simp [hx]

/-- Structure of `filepath.Dir` on an absolute path: it is either the root
or a separator-free-tailed proper ancestor whose slash-extended form leads
the path. -/
theorem goDir_cases (k : GoPath) (hk : isAbsPath k = true) :
    goDir k = ['/'] ∨
      (hasSuf ['/'] (goDir k) = false ∧ hasPre (goDir k ++ ['/']) k = true) := by
  obtain ⟨t, ht⟩ := (hasPre_iff _ _).mp hk
  have hmem : '/' ∈ k.reverse := by rw [ht]; simp
  have hne := dropWhile_ne_nil_of_mem (fun c => c != '/') k.reverse '/' hmem (by simp)
  obtain ⟨a, arest, hdrev⟩ := List.exists_cons_of_ne_nil hne
  have ha : a = '/' := by
    have h2 := dropWhile_head_false (fun c => c != '/') k.reverse a arest hdrev
    simpa using h2
  subst ha
  have h1 : ((k.reverse.dropWhile (fun c => c != '/')).reverse) = arest.reverse ++ ['/'] := by
    rw [hdrev]
    simp
  have hgd : goDir k =
      if (arest.dropWhile (fun c => c == '/')).reverse.isEmpty then ['/']
      else (arest.dropWhile (fun c => c == '/')).reverse := by
    simp only [goDir, h1]
    rw [if_neg (by simp)]
    simp [List.dropWhile_cons]
  cases he : arest.dropWhile (fun c => c == '/') with
  | nil =>
    left
    rw [hgd, he]
    simp
  | cons b brest =>
    right
    have hb : (b == '/') = false := dropWhile_head_false _ arest b brest he
    have hb' : ¬(b = '/') := by simpa using hb
    have hgd2 : goDir k = brest.reverse ++ [b] := by
      rw [hgd, he]
      simp
    constructor
    · rw [hgd2]
      unfold hasSuf
      simp only [List.reverse_append, List.reverse_cons, List.reverse_nil,
        List.nil_append, List.reverse_reverse, List.singleton_append]
      simp only [hasPre, Bool.and_true]
      rw [beq_eq_false_iff_ne]
      exact fun h => hb' h.symm
    · have hsplit : k.reverse.takeWhile (fun c => c != '/') ++ ('/' :: arest) = k.reverse := by
        rw [← hdrev]
        exact List.takeWhile_append_dropWhile _ _
      have hk_eq : k = ('/' :: arest).reverse ++
          (k.reverse.takeWhile (fun c => c != '/')).reverse := by
        have h3 := congrArg List.reverse hsplit
        simpa using h3.symm
      have hdw2 : ('/' :: arest).dropWhile (fun c => c == '/') = b :: brest := by
        rw [List.dropWhile_cons]
        simp [he]
      have hsplit2 : ('/' :: arest).takeWhile (fun c => c == '/') ++ (b :: brest) =
          '/' :: arest := by
        rw [← hdw2]
        exact List.takeWhile_append_dropWhile _ _
      have hs_ne : ('/' :: arest).takeWhile (fun c => c == '/') ≠ [] := by
        rw [List.takeWhile_cons]
        simp
      have hsrev_ne : (('/' :: arest).takeWhile (fun c => c == '/')).reverse ≠ [] := by
        simp [hs_ne]
      obtain ⟨c0, srest, hsrev⟩ := List.exists_cons_of_ne_nil hsrev_ne
      have hc0 : c0 = '/' := by
        have hmem0 : c0 ∈ (('/' :: arest).takeWhile (fun c => c == '/')).reverse := by
          rw [hsrev]
          simp
        rw [List.mem_reverse] at hmem0
        simpa using List.mem_takeWhile_imp hmem0
      subst hc0
      obtain ⟨base, hbase⟩ : ∃ base, (List.takeWhile (fun c => c != '/') k.reverse).reverse = base :=
        ⟨_, rfl⟩
      rw [hbase] at hk_eq
      refine (hasPre_iff _ _).mpr ⟨srest ++ base, ?_⟩
      rw [hgd2, hk_eq, ← hsplit2, List.reverse_append, hsrev]
      simp

/-- If the user ignorer flags the parent directory of an absolute path, it
flags the path itself: an exact match on the parent flags the child via
the recorded directory prefix, and a prefix match extends along the
path. -/
theorem IsIgnored_goDir (c : GoPath) (hc : isAbsPath c = true) (igns : List GoPath)
    (ui : userIgnorer) (hui : createUserIgnorer (some c) igns = .ok ui)
    (k : GoPath) (hk : isAbsPath k = true)
    (h : ui.IsIgnored (some c) (goDir k) = true) : ui.IsIgnored (some c) k = true := by
  have hspec := createUserIgnorerAux_spec c hc igns [] [] ui hui (by intro p hp; cases hp)
  have hcases := goDir_cases k hk
  have habsgd : isAbsPath (goDir k) = true := by
    rcases hcases with h1 | ⟨h1, h2⟩
    · rw [h1]
      rfl
    · obtain ⟨g0, gs, hg⟩ := List.exists_cons_of_ne_nil (goDir_ne_nil k)
      obtain ⟨t1, ht1⟩ := (hasPre_iff _ _).mp h2
      obtain ⟨t0, ht0⟩ := (hasPre_iff _ _).mp hk
      rw [hg] at ht1
      have h3 := ht0.symm.trans ht1
      simp only [List.cons_append, List.nil_append, List.append_assoc, List.cons.injEq] at h3
      unfold isAbsPath
      rw [hg, ← h3.1]
      simp [hasPre]
  have hgdk : hasPre (goDir k) k = true := by
    rcases hcases with h1 | ⟨h1, h2⟩
    · rw [h1]
      exact hk
    · exact hasPre_trans (hasPre_self_append (goDir k) ['/']) h2
  have hdirform : hasPre (dirForm (goDir k)) k = true := by
    rcases hcases with h1 | ⟨h1, h2⟩
    · rw [h1]
      have hdf : dirForm ['/'] = ['/'] := by decide
      rw [hdf]
      exact hk
    · unfold dirForm
      rw [h1]
      simpa using h2
  unfold userIgnorer.IsIgnored at h
  rw [goAbs_of_abs _ habsgd] at h
  unfold userIgnorer.IsIgnored
  rw [goAbs_of_abs _ hk]
  simp only [Bool.or_eq_true, List.any_eq_true] at h ⊢
  rcases h with hcontains | ⟨d, hd, hdpre⟩
  · have hmem : goDir k ∈ ui.ignored := by simpa using hcontains
    exact Or.inr ⟨dirForm (goDir k), (hspec _ hmem).1, hdirform⟩
  · exact Or.inr ⟨d, hd, hasPre_trans hdpre hgdk⟩

/-- `IsIgnored` depends only on the resolved absolute form of its
argument. -/
theorem IsIgnored_resolved (c : GoPath) (hc : isAbsPath c = true) (ui : userIgnorer)
    {q fq : GoPath} (hq : goAbs (some c) q = some fq) :
    ui.IsIgnored (some c) fq = ui.IsIgnored (some c) q := by
  unfold userIgnorer.IsIgnored
  rw [hq, goAbs_of_abs _ (goAbs_abs hc hq)]

/-- A user-ignored input path is skipped by the registration loop: the run
is the same as if the path had not been given at all. -/
theorem watchLoop1_skip_ignored (cwd : Option GoPath) (ui : userIgnorer) (fsys : FS)
    (addErr : GoPath → Option GoErr) (p : GoPath) (post : List GoPath)
    (hig : ui.IsIgnored cwd p = true) :
    ∀ pre m w, watchLoop1 cwd ui fsys addErr (pre ++ p :: post) m w =
      watchLoop1 cwd ui fsys addErr (pre ++ post) m w := by
  intro pre
  induction pre with
  | nil =>
    intro m w
    simp only [List.nil_append]
    cases hab : goAbs cwd p with
    | none =>
      exfalso
      unfold userIgnorer.IsIgnored at hig
      rw [hab] at hig
      cases hig
    | some fp =>
      simp only [watchLoop1]
      rw [hab]
      simp [hig]
  | cons a pre' ih =>
    intro m w
    simp only [List.cons_append, watchLoop1]
    cases hab : goAbs cwd a with
    | none => rfl
    | some fa =>
      dsimp only
      by_cases hcond : ((m.lookup fa).isSome || ui.IsIgnored cwd a) = true
      · simp only [if_pos hcond]
        exact ih m w
      · simp only [if_neg hcond]
        cases hadd : addErr fa with
        | some e => rfl
        | none => exact ih _ _

/-- Every key a successful registration loop adds comes from an input path
that resolved to it and that the user ignorer does not flag. -/
theorem watchLoop1_keys (cwd : Option GoPath) (ui : userIgnorer) (fsys : FS)
    (addErr : GoPath → Option GoErr) :
    ∀ ins m w ups w1, watchLoop1 cwd ui fsys addErr ins m w = .ok (ups, w1) →
      ∀ k, k ∈ ups.map Prod.fst →
        k ∈ m.map Prod.fst ∨
          ∃ q, goAbs cwd q = some k ∧ ui.IsIgnored cwd q = false := by
  intro ins
  induction ins with
  | nil =>
    intro m w ups w1 h k hk
    simp only [watchLoop1, Except.ok.injEq, Prod.mk.injEq] at h
    rw [← h.1] at hk
    exact Or.inl hk
  | cons p rest ih =>
    intro m w ups w1 h k hk
    simp only [watchLoop1] at h
    split at h
    · simp at h
    · split at h
      · exact ih _ _ _ _ h k hk
      · split at h
        · simp at h
        · rename_i x1 fp habs hcond x2 hadd
          rcases ih _ _ _ _ h k hk with h1 | h1
          · simp only [List.map_append, List.mem_append] at h1
            rcases h1 with h2 | h2
            · exact Or.inl h2
            · simp only [List.map_cons, List.map_nil, List.mem_singleton] at h2
              refine Or.inr ⟨p, ?_, ?_⟩
              · rw [habs, h2]
              · simp only [Bool.or_eq_true, not_or, Bool.not_eq_true] at hcond
                exact hcond.2
          · exact Or.inr h1

/-- C5: an input path flagged by the user ignorer is skipped without error
— running `watch` with it is the same as running `watch` without it, its
resolved form is never a key of the result map, never registered with the
watcher (neither as a user path nor as a rename parent), and never a
rename child; a path whose resolved form is already in the map is likewise
skipped by the registration loop without any effect. -/
theorem watch_skips_ignored (c : GoPath) (fsys : FS) (newErr : Option GoErr)
    (addErr : GoPath → Option GoErr) (igns : List GoPath) (ui : userIgnorer) (p : GoPath)
    (hc : isAbsPath c = true)
    (hui : createUserIgnorer (some c) igns = .ok ui)
    (hig : ui.IsIgnored (some c) p = true) :
    (∀ pre post, watch (some c) fsys newErr addErr (pre ++ p :: post) igns =
        watch (some c) fsys newErr addErr (pre ++ post) igns) ∧
      (∀ q fq rest m w, goAbs (some c) q = some fq → (m.lookup fq).isSome = true →
        watchLoop1 (some c) ui fsys addErr (q :: rest) m w =
          watchLoop1 (some c) ui fsys addErr rest m w) ∧
      (∀ ins fp ups wfin, goAbs (some c) p = some fp →
        (watch (some c) fsys newErr addErr ins igns).res = .ok ups →
        (watch (some c) fsys newErr addErr ins igns).w = some wfin →
        fp ∉ ups.map Prod.fst ∧ fp ∉ wfin.adds ∧
          ∀ ig, (watch (some c) fsys newErr addErr ins igns).ig = some ig →
            fp ∉ ig.renameChildren) := by
  refine ⟨?_, ?_, ?_⟩
  · intro pre post
    have hl := watchLoop1_skip_ignored (some c) ui fsys addErr p post hig pre
    unfold watch
    rw [hui]
    cases newErr with
    | some e => rfl
    | none => simp only [hl]
  · intro q fq rest m w habs hfound
    simp only [watchLoop1]
    rw [habs]
    simp [hfound]
  · intro ins fp ups wfin habs hres hw
    unfold watch at hres hw ⊢
    split at hres
    · simp at hres
    · rename_i ui2 hequi
      split at hres
      · simp at hres
      · split at hres
        · simp at hres
        · rename_i ups0 w1 heq3
          split at hres
          · simp at hres
          · rename_i hid rd rc w2 heq4
            simp only [Except.ok.injEq] at hres
            subst hres
            rw [hui] at hequi
            injection hequi with hui2
            subst hui2
            simp only [hui, heq3, heq4, Option.some.injEq] at hw
            subst hw
            obtain ⟨δ1, hδ1, hδ2⟩ := watchLoop1_ok_adds _ _ _ _ _ _ _ _ _ heq3
            simp only [List.nil_append] at hδ1
            subst hδ1
            obtain ⟨hrc, ⟨δ2, hrd, hadds⟩, hnd, hpres, hmem⟩ :=
              watchLoop2_ok_spec _ _ _ _ _ _ _ _ _ _ _ heq4
            simp only [List.nil_append] at hrc hrd
            subst hrd
            have hkeyfact : ∀ k, k ∈ ups0.map Prod.fst →
                ui.IsIgnored (some c) k = false := by
              intro k hk
              rcases watchLoop1_keys _ _ _ _ _ _ _ _ _ heq3 k hk with h1 | h1
              · simp at h1
              · obtain ⟨q, hq1, hq2⟩ := h1
                rw [IsIgnored_resolved c hc ui hq1]
                exact hq2
            have hfp_ig : ui.IsIgnored (some c) fp = true := by
              rw [IsIgnored_resolved c hc ui habs]
              exact hig
            have hkeyabs : ∀ k, k ∈ ups0.map Prod.fst → isAbsPath k = true := by
              intro k hk
              rcases watchLoop1_keys _ _ _ _ _ _ _ _ _ heq3 k hk with h1 | h1
              · simp at h1
              · obtain ⟨q, hq1, hq2⟩ := h1
                exact goAbs_abs hc hq1
            have hA : fp ∉ ups0.map Prod.fst := by
              intro hmemk
              rw [hkeyfact fp hmemk] at hfp_ig
              cases hfp_ig
            have hw2 : w2.adds = ups0.map Prod.fst ++ rd := by
              rw [hadds, hδ2]
              simp
            refine ⟨hA, ?_, ?_⟩
            · rw [hw2]
              intro hmem2
              rcases List.mem_append.mp hmem2 with h1 | h1
              · exact hA h1
              · rcases hmem _ h1 with h2 | h2
                · cases h2
                · obtain ⟨qk, hqk, hfd⟩ := h2
                  have h3 : ui.IsIgnored (some c) (goDir qk) = true := by
                    rw [← hfd]
                    exact hfp_ig
                  have h4 := IsIgnored_goDir c hc igns ui hui qk (hkeyabs qk hqk) h3
                  rw [hkeyfact qk hqk] at h4
                  cases h4
            · intro ig higeq
              simp only [Option.some.injEq] at higeq
              intro hrcmem
              rw [← higeq] at hrcmem
              have h6 : fp ∈ rc := hrcmem
              rw [hrc] at h6
              exact hA (List.mem_filter.mp h6).1

/-- Witness for `watch_skips_ignored`: with ignore list `["/a"]`, the input
path `/a/sub` is skipped, unregistered and absent everywhere. -/
theorem watch_skips_ignored_witness :
    (∀ pre post, watch (some "/w".toList) (fun _ => FileModel.dir) none (fun _ => none)
        (pre ++ "/a/sub".toList :: post) ["/a".toList] =
        watch (some "/w".toList) (fun _ => FileModel.dir) none (fun _ => none)
          (pre ++ post) ["/a".toList]) ∧
      (∀ q fq rest m w, goAbs (some "/w".toList) q = some fq →
        (m.lookup fq).isSome = true →
        watchLoop1 (some "/w".toList) (⟨["/a".toList], ["/a/".toList]⟩ : userIgnorer)
            (fun _ => FileModel.dir) (fun _ => none) (q :: rest) m w =
          watchLoop1 (some "/w".toList) (⟨["/a".toList], ["/a/".toList]⟩ : userIgnorer)
            (fun _ => FileModel.dir) (fun _ => none) rest m w) ∧
      (∀ ins fp ups wfin, goAbs (some "/w".toList) "/a/sub".toList = some fp →
        (watch (some "/w".toList) (fun _ => FileModel.dir) none (fun _ => none)
          ins ["/a".toList]).res = .ok ups →
        (watch (some "/w".toList) (fun _ => FileModel.dir) none (fun _ => none)
          ins ["/a".toList]).w = some wfin →
        fp ∉ ups.map Prod.fst ∧ fp ∉ wfin.adds ∧
          ∀ ig, (watch (some "/w".toList) (fun _ => FileModel.dir) none (fun _ => none)
              ins ["/a".toList]).ig = some ig →
            fp ∉ ig.renameChildren) :=
  watch_skips_ignored "/w".toList (fun _ => FileModel.dir) none (fun _ => none)
    ["/a".toList] ⟨["/a".toList], ["/a/".toList]⟩ "/a/sub".toList
    (by decide) (by rfl) (by decide)
